import Mathlib

/-!
Shallow embedding of the tabular reshaping operations demonstrated in
`src/01_pandas/03-tidy_data.ipynb`: melt (wide to long), pivot (long to
wide, including the grouped variant), the `parse_age` column-splitting
function, and the normalization of the Billboard table into a track
(entity) table plus a rank (fact) table.

Tables are ordered lists of named columns together with rows of cells;
cells are integers, strings, or the missing-value marker `na` (NaN).
-/

namespace TidyData

/-- A cell value: the missing-value marker (NaN), an integer, or a string. -/
inductive Value where
  | na : Value
  | int (n : Int) : Value
  | str (s : String) : Value
deriving DecidableEq, Repr

instance : Inhabited Value := ⟨Value.na⟩

/-- A dataframe: named columns, and rows whose cells align positionally
with `cols`. -/
structure Table where
  cols : List String
  rows : List (List Value)
deriving DecidableEq, Repr

/-- The cell of row `r` (aligned with `cols`) in column `c`; `na` when the
column is absent. -/
def getCell (cols : List String) (r : List Value) (c : String) : Value :=
  match (cols.zip r).find? (fun p => decide (p.1 = c)) with
  | some p => p.2
  | none => Value.na

/-- Lexicographic comparison of character lists by character code, the
order in which strings compare. -/
def charListLt : List Char → List Char → Bool
  | _, [] => false
  | [], _ :: _ => true
  | c :: cs, d :: ds =>
    if c.toNat < d.toNat then true
    else if d.toNat < c.toNat then false
    else charListLt cs ds

theorem charListLt_irrefl : ∀ l, charListLt l l = false
  | [] => rfl
  | c :: cs => by simp [charListLt, charListLt_irrefl cs]

theorem charListLt_trans {a b c : List Char} (h₁ : charListLt a b = true)
    (h₂ : charListLt b c = true) : charListLt a c = true := by
  induction a generalizing b c with
  | nil =>
    cases c with
    | nil =>
      cases b with
      | nil => simp [charListLt] at h₁
      | cons d ds => simp [charListLt] at h₂
    | cons e es => rfl
  | cons x xs ih =>
    cases b with
    | nil => simp [charListLt] at h₁
    | cons y ys =>
      cases c with
      | nil => simp [charListLt] at h₂
      | cons z zs =>
        simp only [charListLt] at h₁ h₂ ⊢
        split_ifs at h₁ h₂ ⊢ <;>
          first
            | rfl
            | (exact ih h₁ h₂)
            | omega
            | (exfalso; omega)
            | (simp at h₁; done)
            | (simp at h₂; done)

theorem char_eq_of_toNat_eq {c d : Char} (h : c.toNat = d.toNat) : c = d := by
  have hv : c.val = d.val := by
    unfold Char.toNat at h
    exact UInt32.toNat.inj h
  exact Char.eq_of_val_eq hv

theorem charListLt_trichotomy :
    ∀ a b : List Char, charListLt a b = true ∨ a = b ∨ charListLt b a = true := by
  intro a
  induction a with
  | nil =>
    intro b
    cases b with
    | nil => exact Or.inr (Or.inl rfl)
    | cons y ys => exact Or.inl rfl
  | cons x xs ih =>
    intro b
    cases b with
    | nil => exact Or.inr (Or.inr rfl)
    | cons y ys =>
      by_cases hxy : x.toNat < y.toNat
      · exact Or.inl (by simp [charListLt, hxy])
      · by_cases hyx : y.toNat < x.toNat
        · exact Or.inr (Or.inr (by simp [charListLt, hyx]))
        · have hx : x = y := char_eq_of_toNat_eq (by omega)
          subst hx
          rcases ih ys with h | h | h
          · exact Or.inl (by simp [charListLt, h])
          · exact Or.inr (Or.inl (by rw [h]))
          · exact Or.inr (Or.inr (by simp [charListLt, h]))

/-- Strict comparison of cell values: `na` sorts first, then integers by
numeric order, then strings by lexicographic order (the natural orderings
pandas uses when sorting a homogeneous index). -/
def vlt : Value → Value → Bool
  | .na, .na => false
  | .na, .int _ => true
  | .na, .str _ => true
  | .int _, .na => false
  | .int a, .int b => decide (a < b)
  | .int _, .str _ => true
  | .str _, .na => false
  | .str _, .int _ => false
  | .str a, .str b => charListLt a.data b.data

/-- Non-strict order on cell values. -/
def Vle (a b : Value) : Prop := vlt a b = true ∨ a = b

instance : DecidableRel Vle := fun a b =>
  decidable_of_iff (vlt a b = true ∨ a = b) Iff.rfl

theorem vlt_irrefl (a : Value) : vlt a a = false := by
  cases a <;> simp [vlt, charListLt_irrefl]

theorem vlt_trans {a b c : Value} (h₁ : vlt a b = true) (h₂ : vlt b c = true) :
    vlt a c = true := by
  cases a <;> cases b <;> cases c <;>
    first
      | rfl
      | (simp only [vlt, decide_eq_true_eq] at h₁ h₂ ⊢; exact lt_trans h₁ h₂)
      | (simp only [vlt] at h₁ h₂ ⊢; exact charListLt_trans h₁ h₂)
      | (simp [vlt] at h₁; done)
      | (simp [vlt] at h₂; done)

theorem vlt_total (a b : Value) : vlt a b = true ∨ a = b ∨ vlt b a = true := by
  cases a <;> cases b <;>
    first
      | exact Or.inl rfl
      | exact Or.inr (Or.inl rfl)
      | exact Or.inr (Or.inr rfl)
      | (rename_i x y
         rcases lt_trichotomy x y with h | h | h
         · exact Or.inl (by simp only [vlt, decide_eq_true_eq]; exact h)
         · exact Or.inr (Or.inl (by rw [h]))
         · exact Or.inr (Or.inr (by simp only [vlt, decide_eq_true_eq]; exact h)))
      | (rename_i x y
         rcases charListLt_trichotomy x.data y.data with h | h | h
         · exact Or.inl (by simp only [vlt]; exact h)
         · refine Or.inr (Or.inl ?_)
           cases x
           cases y
           exact congrArg (Value.str ∘ String.mk) h
         · exact Or.inr (Or.inr (by simp only [vlt]; exact h)))

theorem vlt_asymm {a b : Value} (h : vlt a b = true) : vlt b a = false := by
  by_contra hc
  have hba : vlt b a = true := by
    cases hv : vlt b a
    · exact absurd hv hc
    · rfl
  have := vlt_trans h hba
  rw [vlt_irrefl] at this
  exact Bool.false_ne_true this

theorem vlt_ne {a b : Value} (h : vlt a b = true) : a ≠ b := by
  intro he
  subst he
  rw [vlt_irrefl] at h
  exact Bool.false_ne_true h

instance : IsTotal Value Vle :=
  ⟨fun a b => by
    rcases vlt_total a b with h | h | h
    · exact Or.inl (Or.inl h)
    · exact Or.inl (Or.inr h)
    · exact Or.inr (Or.inl h)⟩

instance : IsTrans Value Vle :=
  ⟨fun a b c h₁ h₂ => by
    rcases h₁ with h₁ | h₁
    · rcases h₂ with h₂ | h₂
      · exact Or.inl (vlt_trans h₁ h₂)
      · subst h₂; exact Or.inl h₁
    · subst h₁; exact h₂⟩

instance : IsAntisymm Value Vle :=
  ⟨fun a b h₁ h₂ => by
    rcases h₁ with h₁ | h₁
    · rcases h₂ with h₂ | h₂
      · exact absurd (vlt_asymm h₁) (by simp [h₂])
      · exact h₂.symm
    · exact h₁⟩

/-- Sorted list of the distinct values occurring in `l` (the index pandas
builds when pivoting or grouping). -/
def sortVals (l : List Value) : List Value := l.dedup.insertionSort Vle

theorem sortVals_perm_dedup (l : List Value) : (sortVals l).Perm l.dedup :=
  List.perm_insertionSort Vle l.dedup

theorem sortVals_nodup (l : List Value) : (sortVals l).Nodup :=
  ((sortVals_perm_dedup l).nodup_iff).mpr l.nodup_dedup

theorem sortVals_sorted (l : List Value) : List.Sorted Vle (sortVals l) :=
  List.sorted_insertionSort Vle l.dedup

theorem mem_sortVals {a : Value} {l : List Value} : a ∈ sortVals l ↔ a ∈ l := by
  rw [(sortVals_perm_dedup l).mem_iff, List.mem_dedup]

theorem sortVals_length (l : List Value) : (sortVals l).length = l.dedup.length :=
  (sortVals_perm_dedup l).length_eq

instance {ε α : Type} [DecidableEq ε] [DecidableEq α] : DecidableEq (Except ε α)
  | .error e, .error f => decidable_of_iff (e = f) (by simp)
  | .error _, .ok _ => isFalse (by simp)
  | .ok _, .error _ => isFalse (by simp)
  | .ok a, .ok b => decidable_of_iff (a = b) (by simp)

/-- `pd.melt(t, id_vars, var_name, value_name)`: the identifier columns are kept,
every other column `v` contributes one output row per source row, holding the
identifier cells, the former column header `v` as a string value, and the
corresponding cell.  pandas emits the output column-major: all rows of the
first non-identifier column, then all rows of the second, and so on, each
block in source row order. -/
def melt (t : Table) (idVars : List String) (varName valueName : String) : Table :=
  let valueVars := t.cols.filter (fun c => decide (c ∉ idVars))
  { cols := idVars ++ [varName, valueName],
    rows := valueVars.flatMap (fun v =>
      t.rows.map (fun r =>
        idVars.map (getCell t.cols r) ++ [Value.str v, getCell t.cols r v])) }

/-- The error message `DataFrame.pivot` raises on duplicate
(index, columns) pairs. -/
def dupMsg : String := "Index contains duplicate entries, cannot reshape"

/-- The cell `pivot` places at row `iv`, column `cv`: the `values` entry of
the input row whose `index` cell is `iv` and whose `columns` cell is `cv`,
or the missing-value marker when no such row exists. -/
def pivotLookup (t : Table) (index columns values : String) (iv cv : Value) : Value :=
  match t.rows.find? (fun r =>
      decide (getCell t.cols r index = iv) && decide (getCell t.cols r columns = cv)) with
  | some r => getCell t.cols r values
  | none => Value.na

/-- The string pandas prints for a column label when the pivoted frame is
materialized with `reset_index` (labels are plain strings in the notebook). -/
def labelName : Value → String
  | .str s => s
  | .int n => toString n
  | .na => "nan"

/-- `t.pivot(index, columns, values)` followed by `reset_index()`, as in the
notebook: one row per distinct `index` value in sorted order, one column per
distinct `columns` value in sorted order, each cell looked up from the input,
absent combinations filled with the missing-value marker.  Raises (returns an
error, producing no table) when some (index, columns) pair occurs in more
than one input row, with no implicit aggregation. -/
def pivot (t : Table) (index columns values : String) : Except String Table :=
  if (t.rows.map (fun r =>
      (getCell t.cols r index, getCell t.cols r columns))).Nodup then
    let idxVals := sortVals (t.rows.map (fun r => getCell t.cols r index))
    let colVals := sortVals (t.rows.map (fun r => getCell t.cols r columns))
    Except.ok
      { cols := index :: colVals.map labelName,
        rows := idxVals.map (fun iv =>
          iv :: colVals.map (fun cv => pivotLookup t index columns values iv cv)) }
  else Except.error dupMsg

/-- The notebook's "simple(r) melt example" table: columns `[row, a, b, c]`,
rows `A/B/C`. -/
def messySimple : Table :=
  { cols := ["row", "a", "b", "c"],
    rows := [[.str "A", .int 1, .int 4, .int 7],
             [.str "B", .int 2, .int 5, .int 8],
             [.str "C", .int 3, .int 6, .int 9]] }

/-- The same table restricted to its first data row `[A, 1, 4, 7]`, the
concrete round-trip scenario of the specification. -/
def messyOneRow : Table :=
  { cols := ["row", "a", "b", "c"],
    rows := [[.str "A", .int 1, .int 4, .int 7]] }

/-- A molten-shaped table in which the (date, element) pair `(d2, tmax)`
occurs in two rows with identical values. -/
def dupMolten : Table :=
  { cols := ["date", "element", "value"],
    rows := [[.str "d2", .str "tmax", .int 27],
             [.str "d2", .str "tmax", .int 27]] }

theorem filter_mem_perm {cols ids : List String} (h1 : cols.Nodup) (h2 : ids.Nodup)
    (h3 : ∀ c ∈ ids, c ∈ cols) :
    (cols.filter (fun c => decide (c ∈ ids))).Perm ids := by
  rw [List.perm_ext_iff_of_nodup (h1.filter _) h2]
  intro a
  simp only [List.mem_filter, decide_eq_true_eq]
  exact ⟨fun h => h.2, fun h => ⟨h3 a h, h⟩⟩

theorem length_filter_not_mem {cols ids : List String} (h1 : cols.Nodup)
    (h2 : ids.Nodup) (h3 : ∀ c ∈ ids, c ∈ cols) :
    (cols.filter (fun c => decide (c ∉ ids))).length = cols.length - ids.length := by
  have hsplit := @List.length_eq_length_filter_add String cols
    (fun c => decide (c ∉ ids))
  have hpred : (fun c : String => !decide (c ∉ ids)) = (fun c => decide (c ∈ ids)) := by
    funext c
    simp [decide_not]
  rw [hpred] at hsplit
  have hlen := (filter_mem_perm h1 h2 h3).length_eq
  omega

theorem length_flatMap_map {α β γ : Type} (vs : List α) (rows : List β)
    (f : α → β → γ) :
    (vs.flatMap (fun v => rows.map (f v))).length = vs.length * rows.length := by
  induction vs with
  | nil => simp
  | cons v vs ih =>
    simp only [List.flatMap_cons, List.length_append, List.length_map, ih,
      List.length_cons]
    ring

/-- C5: the number of rows of `melt(T, id_vars=ID)` is `len(T)` times the
number of non-identifier columns of `T`. -/
theorem c5_melt_row_count (t : Table) (ids : List String) (vn valn : String)
    (h1 : t.cols.Nodup) (h2 : ids.Nodup) (h3 : ∀ c ∈ ids, c ∈ t.cols) :
    (melt t ids vn valn).rows.length = t.rows.length * (t.cols.length - ids.length) := by
  simp only [melt]
  rw [length_flatMap_map, length_filter_not_mem h1 h2 h3]
  ring

/-- Witness for C5 at the notebook's simple melt example: three rows and
three non-identifier columns give nine molten rows. -/
theorem c5_melt_row_count_witness :
    messySimple.cols.Nodup ∧ (["row"] : List String).Nodup ∧
      (∀ c ∈ ["row"], c ∈ messySimple.cols) ∧
      (melt messySimple ["row"] "variable" "value").rows.length
        = messySimple.rows.length * (messySimple.cols.length - 1) := by
  refine ⟨by decide, by decide, by decide, ?_⟩
  exact c5_melt_row_count messySimple ["row"] "variable" "value"
    (by decide) (by decide) (by decide)

/-- C2: when the same (index, columns) pair occurs in two different rows of a
molten table — whether the values agree or not — `pivot` fails with the
duplicate-entries error and produces no table (hence no partial output and no
implicit aggregation). -/
theorem c2_pivot_duplicate_error (t : Table) (i c v : String) (a b : Nat)
    (ha : a < t.rows.length) (hb : b < t.rows.length) (hab : a ≠ b)
    (hkey : (getCell t.cols t.rows[a] i, getCell t.cols t.rows[a] c)
          = (getCell t.cols t.rows[b] i, getCell t.cols t.rows[b] c)) :
    pivot t i c v = Except.error dupMsg := by
  have hnodup : ¬ (t.rows.map (fun r =>
      (getCell t.cols r i, getCell t.cols r c))).Nodup := by
    intro hnd
    have hinj := List.nodup_iff_injective_get.mp hnd
    have hget : (t.rows.map (fun r => (getCell t.cols r i, getCell t.cols r c))).get
          ⟨a, by simpa using ha⟩
        = (t.rows.map (fun r => (getCell t.cols r i, getCell t.cols r c))).get
          ⟨b, by simpa using hb⟩ := by
      simp only [List.get_eq_getElem, List.getElem_map]
      exact hkey
    have := hinj hget
    exact hab (by simpa using this)
  simp only [pivot]
  rw [if_neg hnodup]

/-- Witness for C2: the pair (d2, tmax) appears in two rows of `dupMolten`
with identical values; pivot still refuses. -/
theorem c2_pivot_duplicate_error_witness :
    (0 : Nat) < dupMolten.rows.length ∧ (1 : Nat) < dupMolten.rows.length ∧
      (0 : Nat) ≠ 1 ∧
      pivot dupMolten "date" "element" "value" = Except.error dupMsg := by
  refine ⟨by decide, by decide, by decide, ?_⟩
  exact c2_pivot_duplicate_error dupMolten "date" "element" "value" 0 1
    (by decide) (by decide) (by decide) (by decide)

theorem getElem?_flatMap_blocks {α β γ : Type} (vs : List α) (rows : List β)
    (f : α → β → γ) (i j : Nat) (hi : i < rows.length) (hj : j < vs.length) :
    (vs.flatMap (fun v => rows.map (f v)))[j * rows.length + i]?
      = some (f vs[j] rows[i]) := by
  induction vs generalizing j with
  | nil => simp at hj
  | cons v vs ih =>
    cases j with
    | zero =>
      simp only [List.flatMap_cons]
      rw [Nat.zero_mul, Nat.zero_add,
        List.getElem?_append_left (by simpa using hi), List.getElem?_map,
        List.getElem?_eq_getElem hi]
      simp
    | succ j =>
      simp only [List.flatMap_cons]
      have harith : (j + 1) * rows.length + i
          = (rows.map (f v)).length + (j * rows.length + i) := by
        simp only [List.length_map]
        ring
      rw [harith, List.getElem?_append_right (Nat.le_add_right _ _),
        Nat.add_sub_cancel_left]
      have hj' : j < vs.length := by
        simp only [List.length_cons] at hj
        omega
      simpa using ih j hj'

/-- C9: melt emits its rows column-major — the output row at position
`j * n + i` carries the identifier cells of source row `i`, the header of the
`j`-th non-identifier column (in original column order) as the variable, and
that row's cell in that column as the value. -/
theorem c9_melt_column_major (t : Table) (ids : List String) (vn valn : String)
    (i j : Nat) (hi : i < t.rows.length)
    (hj : j < (t.cols.filter (fun c => decide (c ∉ ids))).length) :
    (melt t ids vn valn).rows[j * t.rows.length + i]?
      = some (ids.map (getCell t.cols t.rows[i])
          ++ [Value.str ((t.cols.filter (fun c => decide (c ∉ ids)))[j]),
              getCell t.cols t.rows[i]
                ((t.cols.filter (fun c => decide (c ∉ ids)))[j])]) := by
  simp only [melt]
  exact getElem?_flatMap_blocks (t.cols.filter (fun c => decide (c ∉ ids))) t.rows
    (fun v r => ids.map (getCell t.cols r) ++ [Value.str v, getCell t.cols r v])
    i j hi hj

/-- Witness for C9 at the simple melt example: block `j = 2` (column `c`),
source row `i = 1` (row `B`) lands at output position `2*3 + 1 = 7` as
`(B, c, 8)`. -/
theorem c9_melt_column_major_witness :
    (1 : Nat) < messySimple.rows.length ∧
      (melt messySimple ["row"] "variable" "value").rows[7]?
        = some [.str "B", .str "c", .int 8] := by
  refine ⟨by decide, ?_⟩
  have h := c9_melt_column_major messySimple ["row"] "variable" "value" 1 2
    (by decide) (by decide)
  simpa [messySimple] using h

theorem getCell_cons_self (cols : List String) (r : List Value) (c : String)
    (x : Value) : getCell (c :: cols) (x :: r) c = x := by
  unfold getCell
  rw [List.zip_cons_cons, List.find?_cons_of_pos]
  simp

theorem getCell_cons_of_ne (cols : List String) (r : List Value) {c0 c : String}
    (h : c ≠ c0) (x : Value) :
    getCell (c0 :: cols) (x :: r) c = getCell cols r c := by
  unfold getCell
  rw [List.zip_cons_cons, List.find?_cons_of_neg]
  simp only [decide_eq_true_eq]
  exact fun hh => h hh.symm

theorem mem_map_labelName {l : List Value}
    (hall : ∀ x ∈ l, ∃ a, x = Value.str a) {s : String} :
    s ∈ l.map labelName ↔ Value.str s ∈ l := by
  constructor
  · intro h
    obtain ⟨x, hx, hlx⟩ := List.mem_map.mp h
    obtain ⟨a, rfl⟩ := hall x hx
    simp only [labelName] at hlx
    subst hlx
    exact hx
  · intro h
    exact List.mem_map.mpr ⟨Value.str s, h, rfl⟩

theorem nodup_map_labelName {l : List Value}
    (hall : ∀ x ∈ l, ∃ a, x = Value.str a) (h : l.Nodup) :
    (l.map labelName).Nodup := by
  refine h.map_on ?_
  intro x hx y hy hxy
  obtain ⟨a, rfl⟩ := hall x hx
  obtain ⟨b, rfl⟩ := hall y hy
  simpa [labelName] using hxy

/-- Non-strict lexicographic order on strings (by character code). -/
def StrLe (a b : String) : Prop := charListLt a.data b.data = true ∨ a = b

theorem sorted_le_map_labelName {l : List Value}
    (hall : ∀ x ∈ l, ∃ a, x = Value.str a) (h : List.Sorted Vle l) :
    List.Sorted StrLe (l.map labelName) := by
  rw [List.Sorted, List.pairwise_map]
  refine h.imp_of_mem ?_
  intro x y hx hy hxy
  obtain ⟨a, rfl⟩ := hall x hx
  obtain ⟨b, rfl⟩ := hall y hy
  simp only [labelName]
  rcases hxy with hlt | heq
  · simp only [vlt] at hlt
    exact Or.inl hlt
  · simp only [Value.str.injEq] at heq
    exact Or.inr heq

theorem getCell_map_label {f : Value → Value} {l : List Value} {s : String}
    (hall : ∀ x ∈ l, ∃ a, x = Value.str a) (hs : Value.str s ∈ l) :
    getCell (l.map labelName) (l.map f) s = f (Value.str s) := by
  induction l with
  | nil => simp at hs
  | cons x xs ih =>
    obtain ⟨a, rfl⟩ := hall x (by simp)
    by_cases hc : a = s
    · subst hc
      simp only [List.map_cons, labelName]
      exact getCell_cons_self _ _ _ _
    · simp only [List.map_cons, labelName]
      rw [getCell_cons_of_ne _ _ (fun hh => hc hh.symm)]
      refine ih (fun y hy => hall y (by simp [hy])) ?_
      rcases List.mem_cons.mp hs with heq | hmem
      · exact absurd heq.symm (by simp [hc])
      · exact hmem

/-- C6: a successful pivot of a molten-shaped table (string-valued variable
column, variable names distinct from the index column name) has exactly one
row per distinct index value with the rows sorted by the value ordering,
exactly one column (after the leading index column) per distinct variable
value with the columns sorted lexicographically, and the cell of every
(index, variable) combination absent from the input is the missing-value
marker. -/
theorem c6_pivot_shape (t : Table) (i c v : String) (w : Table)
    (hok : pivot t i c v = Except.ok w)
    (hstr : ∀ r ∈ t.rows, ∃ s, getCell t.cols r c = Value.str s)
    (hic : ∀ r ∈ t.rows, getCell t.cols r c ≠ Value.str i) :
    List.Sorted Vle (w.rows.map List.headI)
      ∧ (w.rows.map List.headI).Nodup
      ∧ (∀ x, x ∈ w.rows.map List.headI
          ↔ x ∈ t.rows.map (fun r => getCell t.cols r i))
      ∧ List.Sorted StrLe w.cols.tail
      ∧ w.cols.tail.Nodup
      ∧ (∀ s, s ∈ w.cols.tail
          ↔ Value.str s ∈ t.rows.map (fun r => getCell t.cols r c))
      ∧ (∀ row ∈ w.rows, ∀ s,
          Value.str s ∈ t.rows.map (fun r => getCell t.cols r c) →
          (∀ r ∈ t.rows,
            ¬(getCell t.cols r i = row.headI ∧ getCell t.cols r c = Value.str s)) →
          getCell w.cols row s = Value.na) := by
  have hallcv : ∀ x ∈ sortVals (t.rows.map (fun r => getCell t.cols r c)),
      ∃ a, x = Value.str a := by
    intro x hx
    rw [mem_sortVals] at hx
    obtain ⟨r, hr, rfl⟩ := List.mem_map.mp hx
    obtain ⟨s, hs⟩ := hstr r hr
    exact ⟨s, hs⟩
  simp only [pivot] at hok
  split at hok
  case isFalse => exact absurd hok (by simp)
  case isTrue hnd =>
    rw [Except.ok.injEq] at hok
    subst hok
    refine ⟨?_, ?_, ?_, ?_, ?_, ?_, ?_⟩
    · simp only [List.map_map]
      have : (List.headI ∘ fun iv : Value =>
          iv :: (sortVals (t.rows.map (fun r => getCell t.cols r c))).map
            (fun cv => pivotLookup t i c v iv cv)) = id := by
        funext iv
        simp
      rw [this, List.map_id]
      exact sortVals_sorted _
    · simp only [List.map_map]
      have : (List.headI ∘ fun iv : Value =>
          iv :: (sortVals (t.rows.map (fun r => getCell t.cols r c))).map
            (fun cv => pivotLookup t i c v iv cv)) = id := by
        funext iv
        simp
      rw [this, List.map_id]
      exact sortVals_nodup _
    · intro x
      simp only [List.map_map]
      have : (List.headI ∘ fun iv : Value =>
          iv :: (sortVals (t.rows.map (fun r => getCell t.cols r c))).map
            (fun cv => pivotLookup t i c v iv cv)) = id := by
        funext iv
        simp
      rw [this, List.map_id]
      exact mem_sortVals
    · exact sorted_le_map_labelName hallcv (sortVals_sorted _)
    · exact nodup_map_labelName hallcv (sortVals_nodup _)
    · intro s
      rw [List.tail_cons, mem_map_labelName hallcv, mem_sortVals]
    · intro row hrow s hs habsent
      obtain ⟨iv, hiv, rfl⟩ := List.mem_map.mp hrow
      have hsne : s ≠ i := by
        obtain ⟨r, hr, hrc⟩ := List.mem_map.mp hs
        intro hsi
        subst hsi
        exact hic r hr hrc
      rw [getCell_cons_of_ne _ _ hsne,
        getCell_map_label hallcv (mem_sortVals.mpr hs)]
      unfold pivotLookup
      rw [List.find?_eq_none.mpr]
      intro r hr
      simp only [Bool.and_eq_true, decide_eq_true_eq]
      intro ⟨h1, h2⟩
      exact habsent r hr ⟨by simpa using h1, h2⟩

/-- The two-row molten table used to exercise C6: one observation per date,
so the (d1, tmin) and (d2, tmax) combinations are structurally absent. -/
def pivotEx : Table :=
  { cols := ["date", "element", "value"],
    rows := [[.str "d1", .str "tmax", .int 1],
             [.str "d2", .str "tmin", .int 2]] }

/-- The wide table `pivot pivotEx` produces. -/
def pivotExWide : Table :=
  { cols := ["date", "tmax", "tmin"],
    rows := [[.str "d1", .int 1, .na],
             [.str "d2", .na, .int 2]] }

/-- Witness for C6 at `pivotEx`. -/
theorem c6_pivot_shape_witness :
    pivot pivotEx "date" "element" "value" = Except.ok pivotExWide ∧
      (List.Sorted Vle (pivotExWide.rows.map List.headI)
        ∧ (pivotExWide.rows.map List.headI).Nodup
        ∧ (∀ x, x ∈ pivotExWide.rows.map List.headI
            ↔ x ∈ pivotEx.rows.map (fun r => getCell pivotEx.cols r "date"))
        ∧ List.Sorted StrLe pivotExWide.cols.tail
        ∧ pivotExWide.cols.tail.Nodup
        ∧ (∀ s, s ∈ pivotExWide.cols.tail
            ↔ Value.str s ∈ pivotEx.rows.map (fun r => getCell pivotEx.cols r "element"))
        ∧ (∀ row ∈ pivotExWide.rows, ∀ s,
            Value.str s ∈ pivotEx.rows.map (fun r => getCell pivotEx.cols r "element") →
            (∀ r ∈ pivotEx.rows,
              ¬(getCell pivotEx.cols r "date" = row.headI
                ∧ getCell pivotEx.cols r "element" = Value.str s)) →
            getCell pivotExWide.cols row s = Value.na)) := by
  have hstr : ∀ r ∈ pivotEx.rows, ∃ s, getCell pivotEx.cols r "element" = Value.str s := by
    intro r hr
    simp only [pivotEx, List.mem_cons, List.not_mem_nil, or_false] at hr
    rcases hr with rfl | rfl
    · exact ⟨"tmax", rfl⟩
    · exact ⟨"tmin", rfl⟩
  refine ⟨by decide, ?_⟩
  exact c6_pivot_shape pivotEx "date" "element" "value" pivotExWide
    (by decide) hstr (by decide)

/-- `parse_age` from the notebook, on the character list of the code string:
`s = s[1:]`; if `s == '65'` return `'65+'`, else return
`s[:-2] + '-' + s[-2:]`.  Python's `s[:-2]` is `take (length - 2)` and
`s[-2:]` is `drop (length - 2)` (for strings shorter than 2 both agree with
Python's clamping).  The function is total: it returns a string for every
input and has no error channel. -/
def parse_age (s : List Char) : List Char :=
  let t := s.drop 1
  if t = ['6', '5'] then ['6', '5', '+']
  else t.take (t.length - 2) ++ '-' :: t.drop (t.length - 2)

/-- The sex field extracted in the notebook: `lambda s: s[:1]`. -/
def sexOf (s : List Char) : List Char := s.take 1

/-- Helper for the re-encoder: drop the first `'-'` of a list. -/
def removeFirstDash : List Char → List Char
  | [] => []
  | c :: cs => if c = '-' then cs else c :: removeFirstDash cs

/-- Modelled from the spec: the source has no re-encoder; the spec only
states that the decoded sex and age fields "reassembled equal the original".
Re-encoding an age range drops the trailing `+` of an open-ended range and
otherwise removes the `-` separating the lo and hi bounds. -/
def unparseAge (a : List Char) : List Char :=
  if a.getLast? = some '+' then a.dropLast else removeFirstDash a

/-- Modelled from the spec: reassemble a code from decoded sex and age. -/
def reencode (sex age : List Char) : List Char := sex ++ unparseAge age

/-- A well-formed sex+age code as assumed by `parse_age`: one sex character
followed by an all-digit age body that is either `65` or has at least three
digits (a lo bound plus a two-digit hi bound), e.g. `m014`, `f1524`, `m65`. -/
def wellFormedCode (s : List Char) : Prop :=
  1 ≤ s.length ∧ (∀ c ∈ s.drop 1, c.isDigit = true) ∧
    (s.drop 1 = ['6', '5'] ∨ 3 ≤ (s.drop 1).length)

instance (s : List Char) : Decidable (wellFormedCode s) := by
  unfold wellFormedCode
  infer_instance

theorem isDigit_ne_plus {c : Char} (h : c.isDigit = true) : c ≠ '+' := by
  intro hc
  subst hc
  simp [Char.isDigit] at h

theorem isDigit_ne_dash {c : Char} (h : c.isDigit = true) : c ≠ '-' := by
  intro hc
  subst hc
  simp [Char.isDigit] at h

theorem removeFirstDash_append {l1 l2 : List Char} (h : '-' ∉ l1) :
    removeFirstDash (l1 ++ '-' :: l2) = l1 ++ l2 := by
  induction l1 with
  | nil => simp [removeFirstDash]
  | cons c cs ih =>
    have hc : c ≠ '-' := fun hh => h (hh ▸ List.mem_cons_self c cs)
    simp only [List.cons_append, removeFirstDash, if_neg hc]
    exact congrArg (c :: ·) (ih (fun hh => h (List.mem_cons_of_mem c hh)))

/-- C4 evidence: `parse_age` applied to the malformed code `xyz` (not a
sex character followed by an age body) silently returns the junk string
`-yz` instead of signalling a parse error; the function has no error
channel at all. -/
theorem c4_parse_age_silent_coercion :
    parse_age ['x', 'y', 'z'] = ['-', 'y', 'z'] ∧
      sexOf ['x', 'y', 'z'] = ['x'] := by decide

/-- C7 (amended): decoding a well-formed code with the notebook's splitting
functions and reassembling the fields is the identity.  The spec's example
`m0-4` is not well-formed and decodes to age `0--4`, not `0-4` (see the
counterexample). -/
theorem c7_decode_reencode_id (s : List Char) (h : wellFormedCode s) :
    reencode (sexOf s) (parse_age s) = s := by
  obtain ⟨h1, hdig, hb⟩ := h
  cases s with
  | nil => simp at h1
  | cons c body =>
    simp only [List.drop_succ_cons, List.drop_zero] at hdig hb
    simp only [reencode, sexOf, parse_age, List.take_succ_cons, List.take_zero,
      List.drop_succ_cons, List.drop_zero]
    rcases hb with hb | hb
    · subst hb
      simp [unparseAge]
    · have hne : body ≠ ['6', '5'] := by
        intro he
        rw [he] at hb
        simp at hb
      rw [if_neg hne]
      have hdropne : body.drop (body.length - 2) ≠ [] := by
        intro he
        have := congrArg List.length he
        simp only [List.length_drop, List.length_nil] at this
        omega
      have he : (body.drop (body.length - 2)).getLast? =
          some ((body.drop (body.length - 2)).getLast hdropne) :=
        List.getLast?_eq_getLast_of_ne_nil hdropne
      have hemem : (body.drop (body.length - 2)).getLast hdropne ∈ body :=
        List.drop_subset _ _ (List.getLast_mem hdropne)
      have heplus : (body.drop (body.length - 2)).getLast hdropne ≠ '+' :=
        isDigit_ne_plus (hdig _ hemem)
      have hlast : (body.take (body.length - 2)
          ++ '-' :: body.drop (body.length - 2)).getLast?
          = some ((body.drop (body.length - 2)).getLast hdropne) := by
        rw [List.getLast?_append_cons,
          show ('-' :: body.drop (body.length - 2))
            = ['-'] ++ body.drop (body.length - 2) from rfl,
          List.getLast?_append_of_ne_nil _ hdropne, he]
      simp only [unparseAge, hlast]
      rw [if_neg (by simpa using heplus)]
      rw [removeFirstDash_append
        (fun hm => isDigit_ne_dash (hdig '-' (List.mem_of_mem_take hm)) rfl)]
      rw [List.take_append_drop]
      rfl

/-- Witness for C7 at the code `m1524`, which decodes to sex `m` and age
`15-24` and reassembles to `m1524`. -/
theorem c7_decode_reencode_id_witness :
    wellFormedCode ['m', '1', '5', '2', '4'] ∧
      parse_age ['m', '1', '5', '2', '4'] = ['1', '5', '-', '2', '4'] ∧
      reencode (sexOf ['m', '1', '5', '2', '4'])
          (parse_age ['m', '1', '5', '2', '4'])
        = ['m', '1', '5', '2', '4'] := by
  refine ⟨by decide, by decide, ?_⟩
  exact c7_decode_reencode_id ['m', '1', '5', '2', '4'] (by decide)

/-- Counterexample to C7 as stated: the spec's example code `m0-4` does not
decode to age `0-4` — `parse_age` returns `0--4` for it (the code shape the
parser assumes has no dash in the body). -/
theorem c7_counterexample :
    parse_age ['m', '0', '-', '4'] = ['0', '-', '-', '4'] ∧
      parse_age ['m', '0', '-', '4'] ≠ ['0', '-', '4'] := by decide

theorem find?_eq_some_of_unique {α : Type} (p : α → Bool) (a : α) :
    ∀ l : List α, a ∈ l → p a = true → (∀ b ∈ l, p b = true → b = a) →
      l.find? p = some a
  | [], ha, _, _ => absurd ha (List.not_mem_nil a)
  | x :: xs, ha, hpa, huniq => by
    by_cases hx : p x = true
    · have hxa : x = a := huniq x (List.mem_cons_self x xs) hx
      subst hxa
      exact List.find?_cons_of_pos xs hx
    · rw [List.find?_cons_of_neg xs hx]
      have ha' : a ∈ xs := by
        rcases List.mem_cons.mp ha with h | h
        · exact absurd (h ▸ hpa) hx
        · exact h
      exact find?_eq_some_of_unique p a xs ha' hpa
        (fun b hb hpb => huniq b (List.mem_cons_of_mem x hb) hpb)

theorem mem_flatMap_const {α β : Type} {vs : List α} {l : List β} (h : vs ≠ [])
    (x : β) : x ∈ vs.flatMap (fun _ => l) ↔ x ∈ l := by
  rw [List.mem_flatMap]
  constructor
  · rintro ⟨v, _, hx⟩
    exact hx
  · intro hx
    obtain ⟨v, hv⟩ := List.exists_mem_of_ne_nil vs h
    exact ⟨v, hv, hx⟩

/-- The molten form of a table whose columns are one identifier column `id`
followed by value columns `vs`. -/
theorem melt_single_rows (t : Table) (id : String) (vs : List String)
    (hc : t.cols = id :: vs) (hnd : t.cols.Nodup) :
    (melt t [id] "variable" "value").rows
      = vs.flatMap (fun v => t.rows.map (fun r =>
          [getCell t.cols r id, Value.str v, getCell t.cols r v])) := by
  have hidnotin : id ∉ vs := by
    rw [hc] at hnd
    exact (List.nodup_cons.mp hnd).1
  have hfilter : t.cols.filter (fun c => decide (c ∉ [id])) = vs := by
    rw [hc]
    have h1 : (id :: vs).filter (fun c => decide (c ∉ [id]))
        = vs.filter (fun c => decide (c ∉ [id])) := by
      simp [List.filter_cons]
    rw [h1]
    apply List.filter_eq_self.mpr
    intro a ha
    have hane : a ≠ id := fun he => hidnotin (he ▸ ha)
    simp [hane]
  simp only [melt]
  rw [hfilter]
  simp only [List.map_cons, List.map_nil, List.singleton_append]

/-- Looking up `(r's identifier value, value column v)` in the pivot of the
molten table recovers the original cell of row `r` in column `v`. -/
theorem melt_pivotLookup (t : Table) (id : String) (vs : List String)
    (hc : t.cols = id :: vs) (hnd : t.cols.Nodup)
    (hkey : (t.rows.map (fun r => getCell t.cols r id)).Nodup)
    (hvar : id ≠ "variable") (hval : id ≠ "value")
    {r : List Value} (hr : r ∈ t.rows) {v : String} (hv : v ∈ vs) :
    pivotLookup (melt t [id] "variable" "value") id "variable" "value"
      (getCell t.cols r id) (Value.str v) = getCell t.cols r v := by
  have hmrows := melt_single_rows t id vs hc hnd
  have hcols : (melt t [id] "variable" "value").cols = [id, "variable", "value"] :=
    rfl
  have gid : ∀ x y z : Value, getCell [id, "variable", "value"] [x, y, z] id = x :=
    fun x y z => getCell_cons_self _ _ _ _
  have gvar : ∀ x y z : Value,
      getCell [id, "variable", "value"] [x, y, z] "variable" = y := by
    intro x y z
    rw [getCell_cons_of_ne _ _ (fun hh => hvar hh.symm), getCell_cons_self]
  have gval : ∀ x y z : Value,
      getCell [id, "variable", "value"] [x, y, z] "value" = z := by
    intro x y z
    rw [getCell_cons_of_ne _ _ (fun hh => hval hh.symm),
      getCell_cons_of_ne _ _ (by decide), getCell_cons_self]
  have hinj := List.inj_on_of_nodup_map hkey
  unfold pivotLookup
  rw [hmrows, hcols]
  rw [find?_eq_some_of_unique _
    [getCell t.cols r id, Value.str v, getCell t.cols r v] _ ?hmem ?hpred ?huniq]
  · exact gval _ _ _
  case hmem =>
    exact List.mem_flatMap.mpr ⟨v, hv, List.mem_map.mpr ⟨r, hr, rfl⟩⟩
  case hpred =>
    simp [gid, gvar]
  case huniq =>
    intro b hb hpb
    obtain ⟨v', hv', hb'⟩ := List.mem_flatMap.mp hb
    obtain ⟨r', hr', rfl⟩ := List.mem_map.mp hb'
    rw [gid, gvar] at hpb
    simp only [Bool.and_eq_true, decide_eq_true_eq] at hpb
    obtain ⟨hpid, hpvar⟩ := hpb
    have hvv : v' = v := by simpa using hpvar
    have hrr : r' = r := hinj hr' hr hpid
    rw [hvv, hrr]

/-- C1 (amended): for a table with one identifier column, at least one value
column, at least one data row, and pairwise-distinct identifier values — so
the molten (index, variable) pairs are unique — pivoting the melt succeeds
and reconstructs the table up to column ordering and row ordering: the
output columns are a permutation of the input columns, and the output rows
are a permutation of the input rows re-read in the output column order.
(Row order is not preserved exactly: pivot sorts rows by index value; see
the counterexample.) -/
theorem c1_melt_pivot_roundtrip (t : Table) (id : String) (vs : List String)
    (hc : t.cols = id :: vs)
    (hnd : t.cols.Nodup)
    (hkey : (t.rows.map (fun r => getCell t.cols r id)).Nodup)
    (hvar : id ≠ "variable") (hval : id ≠ "value")
    (hrows : t.rows ≠ []) (hvs : vs ≠ []) :
    ∃ w, pivot (melt t [id] "variable" "value") id "variable" "value"
        = Except.ok w
      ∧ w.cols.Perm t.cols
      ∧ w.rows.Perm (t.rows.map (fun r => w.cols.map (fun cn => getCell t.cols r cn))) := by
  have hmrows := melt_single_rows t id vs hc hnd
  have hcols : (melt t [id] "variable" "value").cols = [id, "variable", "value"] :=
    rfl
  have hvsnd : vs.Nodup := by
    rw [hc] at hnd
    exact (List.nodup_cons.mp hnd).2
  have gid : ∀ x y z : Value, getCell [id, "variable", "value"] [x, y, z] id = x :=
    fun x y z => getCell_cons_self _ _ _ _
  have gvar : ∀ x y z : Value,
      getCell [id, "variable", "value"] [x, y, z] "variable" = y := by
    intro x y z
    rw [getCell_cons_of_ne _ _ (fun hh => hvar hh.symm), getCell_cons_self]
  -- the per-block projections of the molten rows
  have hblockid : ∀ v : String,
      ((t.rows.map (fun r =>
          [getCell t.cols r id, Value.str v, getCell t.cols r v])).map
        (fun rr => getCell [id, "variable", "value"] rr id))
      = t.rows.map (fun r => getCell t.cols r id) := by
    intro v
    rw [List.map_map]
    apply List.map_congr_left
    intro r _
    exact gid _ _ _
  have hblockvar : ∀ v : String,
      ((t.rows.map (fun r =>
          [getCell t.cols r id, Value.str v, getCell t.cols r v])).map
        (fun rr => getCell [id, "variable", "value"] rr "variable"))
      = t.rows.map (fun _ => Value.str v) := by
    intro v
    rw [List.map_map]
    apply List.map_congr_left
    intro r _
    exact gvar _ _ _
  have hblockkey : ∀ v : String,
      ((t.rows.map (fun r =>
          [getCell t.cols r id, Value.str v, getCell t.cols r v])).map
        (fun rr => (getCell [id, "variable", "value"] rr id,
                    getCell [id, "variable", "value"] rr "variable")))
      = t.rows.map (fun r => (getCell t.cols r id, Value.str v)) := by
    intro v
    rw [List.map_map]
    apply List.map_congr_left
    intro r _
    simp only [Function.comp]
    rw [gid, gvar]
  -- the molten key pairs are distinct
  have hkeys : ((melt t [id] "variable" "value").rows.map (fun r =>
      (getCell (melt t [id] "variable" "value").cols r id,
       getCell (melt t [id] "variable" "value").cols r "variable"))).Nodup := by
    rw [hmrows, hcols, List.map_flatMap]
    simp only [hblockkey]
    rw [List.nodup_flatMap]
    constructor
    · intro v _
      have hfeq : (fun r => (getCell t.cols r id, Value.str v))
          = (fun x => (x, Value.str v)) ∘ (fun r => getCell t.cols r id) := rfl
      rw [hfeq, ← List.map_map]
      exact List.Nodup.map (fun a b hab => by simpa using hab) hkey
    · refine List.Pairwise.imp ?_ hvsnd
      intro a b hne x hxa hxb
      obtain ⟨r1, _, rfl⟩ := List.mem_map.mp hxa
      obtain ⟨r2, _, heq⟩ := List.mem_map.mp hxb
      exact hne ((show b = a by simpa using congrArg Prod.snd heq)).symm
  -- the distinct sorted variable values are a permutation of the value columns
  have hstrnd : (vs.map Value.str).Nodup :=
    List.Nodup.map (fun a b hab => by simpa using hab) hvsnd
  have hcolVals : (sortVals ((melt t [id] "variable" "value").rows.map
      (fun r => getCell (melt t [id] "variable" "value").cols r "variable"))).Perm
      (vs.map Value.str) := by
    refine (List.perm_ext_iff_of_nodup (sortVals_nodup _) hstrnd).mpr ?_
    intro x
    rw [mem_sortVals, hmrows, hcols, List.map_flatMap]
    simp only [hblockvar]
    constructor
    · intro hx
      obtain ⟨v, hv, hxv⟩ := List.mem_flatMap.mp hx
      obtain ⟨r, _, rfl⟩ := List.mem_map.mp hxv
      exact List.mem_map.mpr ⟨v, hv, rfl⟩
    · intro hx
      obtain ⟨v, hv, rfl⟩ := List.mem_map.mp hx
      obtain ⟨r, hr⟩ := List.exists_mem_of_ne_nil t.rows hrows
      exact List.mem_flatMap.mpr ⟨v, hv, List.mem_map.mpr ⟨r, hr, rfl⟩⟩
  -- the distinct sorted index values are a permutation of the identifiers
  have hidx : (sortVals ((melt t [id] "variable" "value").rows.map
      (fun r => getCell (melt t [id] "variable" "value").cols r id))).Perm
      (t.rows.map (fun r => getCell t.cols r id)) := by
    refine (List.perm_ext_iff_of_nodup (sortVals_nodup _) hkey).mpr ?_
    intro x
    rw [mem_sortVals, hmrows, hcols, List.map_flatMap]
    simp only [hblockid]
    exact mem_flatMap_const hvs x
  simp only [pivot]
  rw [if_pos hkeys]
  refine ⟨_, rfl, ?_, ?_⟩
  · -- columns: a permutation of the original columns
    show (id :: ((sortVals ((melt t [id] "variable" "value").rows.map
        (fun r => getCell (melt t [id] "variable" "value").cols r "variable"))).map
          labelName)).Perm t.cols
    rw [hc]
    refine List.Perm.cons id ?_
    have h1 := hcolVals.map labelName
    rw [List.map_map] at h1
    have h2 : vs.map (labelName ∘ Value.str) = vs := by
      have hcomp : (labelName ∘ Value.str) = fun a : String => a := by
        funext a
        rfl
      rw [hcomp, List.map_id']
    rw [h2] at h1
    exact h1
  · -- rows: a permutation of the original rows read in the output column order
    have hb := hidx.map (fun iv =>
      iv :: (sortVals ((melt t [id] "variable" "value").rows.map
        (fun r => getCell (melt t [id] "variable" "value").cols r "variable"))).map
          (fun cv => pivotLookup (melt t [id] "variable" "value")
            id "variable" "value" iv cv))
    rw [List.map_map] at hb
    refine hb.trans ?_
    have heq : t.rows.map ((fun iv =>
        iv :: (sortVals ((melt t [id] "variable" "value").rows.map
          (fun r => getCell (melt t [id] "variable" "value").cols r "variable"))).map
            (fun cv => pivotLookup (melt t [id] "variable" "value")
              id "variable" "value" iv cv))
          ∘ (fun r => getCell t.cols r id))
        = t.rows.map (fun r =>
            (id :: ((sortVals ((melt t [id] "variable" "value").rows.map
              (fun r => getCell (melt t [id] "variable" "value").cols r "variable"))).map
                labelName)).map (fun cn => getCell t.cols r cn)) := by
      apply List.map_congr_left
      intro r hr
      simp only [Function.comp, List.map_cons, List.map_map]
      congr 1
      apply List.map_congr_left
      intro cv hcv
      have hcvmem : cv ∈ vs.map Value.str := hcolVals.mem_iff.mp hcv
      obtain ⟨v, hv, rfl⟩ := List.mem_map.mp hcvmem
      show pivotLookup (melt t [id] "variable" "value") id "variable" "value"
          (getCell t.cols r id) (Value.str v)
        = getCell t.cols r (labelName (Value.str v))
      rw [show labelName (Value.str v) = v from rfl]
      exact melt_pivotLookup t id vs hc hnd hkey hvar hval hr hv
    rw [heq]

/-- The molten form of `messyOneRow`: exactly the rows (A, a, 1), (A, b, 4),
(A, c, 7) of the specification's concrete scenario. -/
def moltenOneRow : Table :=
  { cols := ["row", "variable", "value"],
    rows := [[.str "A", .str "a", .int 1],
             [.str "A", .str "b", .int 4],
             [.str "A", .str "c", .int 7]] }

/-- Witness for C1 (amended) at the specification's concrete scenario: the
single-row table `[row, a, b, c] = [A, 1, 4, 7]` melts to exactly
(A, a, 1), (A, b, 4), (A, c, 7), and here the round trip even reproduces
the table on the nose. -/
theorem c1_melt_pivot_roundtrip_witness :
    melt messyOneRow ["row"] "variable" "value" = moltenOneRow ∧
      messyOneRow.cols = "row" :: ["a", "b", "c"] ∧
      messyOneRow.cols.Nodup ∧
      (messyOneRow.rows.map (fun r => getCell messyOneRow.cols r "row")).Nodup ∧
      messyOneRow.rows ≠ [] ∧ (["a", "b", "c"] : List String) ≠ [] ∧
      (∃ w, pivot (melt messyOneRow ["row"] "variable" "value")
            "row" "variable" "value" = Except.ok w
        ∧ w.cols.Perm messyOneRow.cols
        ∧ w.rows.Perm (messyOneRow.rows.map
            (fun r => w.cols.map (fun cn => getCell messyOneRow.cols r cn)))) ∧
      pivot (melt messyOneRow ["row"] "variable" "value") "row" "variable" "value"
        = Except.ok messyOneRow := by
  refine ⟨by decide, rfl, by decide, by decide, by decide, by decide, ?_, by decide⟩
  exact c1_melt_pivot_roundtrip messyOneRow "row" ["a", "b", "c"] rfl
    (by decide) (by decide) (by decide) (by decide) (by decide) (by decide)

/-- A two-row table whose rows are not sorted by identifier value. -/
def tRev : Table :=
  { cols := ["row", "a"],
    rows := [[.str "B", .int 1], [.str "A", .int 2]] }

/-- A table with columns but no data rows. -/
def tEmptyRows : Table :=
  { cols := ["row", "a"],
    rows := [] }

/-- A table with only the identifier column. -/
def tOnlyId : Table :=
  { cols := ["row"],
    rows := [[.str "A"]] }

/-- Counterexample to C1 as stated: (1) on `tRev`, whose rows are `B` then
`A`, the round trip returns the rows sorted `A` then `B` under identical
column lists, so the result is not the original table up to column
ordering alone; (2) with zero data rows the round trip loses the value
column `a` entirely; (3) with no value column the round trip loses the
data rows. -/
theorem c1_counterexample :
    (pivot (melt tRev ["row"] "variable" "value") "row" "variable" "value"
        = Except.ok { cols := ["row", "a"], rows := [[.str "A", .int 2], [.str "B", .int 1]] }
      ∧ tRev.cols = ["row", "a"]
      ∧ [[Value.str "A", Value.int 2], [Value.str "B", Value.int 1]] ≠ tRev.rows)
    ∧ (pivot (melt tEmptyRows ["row"] "variable" "value") "row" "variable" "value"
        = Except.ok { cols := ["row"], rows := [] }
      ∧ tEmptyRows.cols = ["row", "a"])
    ∧ (pivot (melt tOnlyId ["row"] "variable" "value") "row" "variable" "value"
        = Except.ok { cols := ["row"], rows := [] }
      ∧ tOnlyId.rows ≠ []) := by decide

/-- One `groupby` partition: the rows whose `g` cell equals `k` (pandas keeps
every column inside a group). -/
def subTable (t : Table) (g : String) (k : Value) : Table :=
  { cols := t.cols,
    rows := t.rows.filter (fun r => decide (getCell t.cols r g = k)) }

/-- The sorted distinct group keys (pandas `groupby` sorts its groups). -/
def groupKeys (t : Table) (g : String) : List Value :=
  sortVals (t.rows.map (fun r => getCell t.cols r g))

/-- Collect per-group results, failing on the first error. -/
def collectOk {ε α : Type} : List (Except ε α) → Except ε (List α)
  | [] => Except.ok []
  | Except.error e :: _ => Except.error e
  | Except.ok w :: rest => (collectOk rest).map (fun ws => w :: ws)

/-- `molten.groupby(g).apply(DataFrame.pivot, index, columns, values)`:
partition by the grouping column and pivot each partition independently;
the notebook then concatenates the per-group pivots with the group key
restored by `reset_index`. -/
def groupedPivots (t : Table) (g index columns values : String) :
    Except String (List Table) :=
  collectOk ((groupKeys t g).map
    (fun k => pivot (subTable t g k) index columns values))

theorem collectOk_ok {ε α : Type} :
    ∀ (l : List (Except ε α)) (ws : List α),
      collectOk l = Except.ok ws → l = ws.map Except.ok
  | [], ws, h => by
    simp only [collectOk, Except.ok.injEq] at h
    subst h
    rfl
  | Except.error e :: xs, ws, h => by
    simp [collectOk] at h
  | Except.ok w :: xs, ws, h => by
    simp only [collectOk] at h
    cases hx : collectOk xs with
    | error e =>
      rw [hx] at h
      simp [Except.map] at h
    | ok ws' =>
      rw [hx] at h
      simp only [Except.map, Except.ok.injEq] at h
      subst h
      rw [collectOk_ok xs ws' hx]
      rfl

/-- A successful pivot has one row per distinct index value. -/
theorem pivot_ok_length {t : Table} {i c v : String} {w : Table}
    (h : pivot t i c v = Except.ok w) :
    w.rows.length = (t.rows.map (fun r => getCell t.cols r i)).dedup.length := by
  simp only [pivot] at h
  split at h
  case isFalse => exact absurd h (by simp)
  case isTrue =>
    rw [Except.ok.injEq] at h
    subst h
    simp [sortVals_length]

theorem dedup_length_map_injective {α β : Type} [DecidableEq α] [DecidableEq β]
    (f : α → β) (hf : Function.Injective f) (l : List α) :
    ((l.map f).dedup).length = l.dedup.length := by
  induction l with
  | nil => simp
  | cons a as ih =>
    by_cases ha : a ∈ as
    · rw [List.dedup_cons_of_mem ha, List.map_cons,
        List.dedup_cons_of_mem (List.mem_map_of_mem f ha), ih]
    · have hfa : f a ∉ as.map f := by
        intro hm
        obtain ⟨b, hb, he⟩ := List.mem_map.mp hm
        rw [hf he] at hb
        exact ha hb
      rw [List.map_cons, List.dedup_cons_of_not_mem hfa,
        List.dedup_cons_of_not_mem ha]
      simp [ih]

theorem dedup_length_append_disjoint {α : Type} [DecidableEq α]
    {l1 l2 : List α} (h : ∀ a ∈ l1, a ∉ l2) :
    ((l1 ++ l2).dedup).length = l1.dedup.length + l2.dedup.length := by
  induction l1 with
  | nil => simp
  | cons a as ih =>
    have hal2 : a ∉ l2 := h a (List.mem_cons_self a as)
    by_cases ha : a ∈ as
    · rw [List.cons_append, List.dedup_cons_of_mem (List.mem_append_left l2 ha),
        List.dedup_cons_of_mem ha,
        ih (fun b hb => h b (List.mem_cons_of_mem a hb))]
    · have hnot : a ∉ as ++ l2 := by
        intro hm
        rcases List.mem_append.mp hm with hm | hm
        · exact ha hm
        · exact hal2 hm
      rw [List.cons_append, List.dedup_cons_of_not_mem hnot,
        List.dedup_cons_of_not_mem ha]
      simp only [List.length_cons, ih (fun b hb => h b (List.mem_cons_of_mem a hb))]
      omega

/-- Summing, over the distinct group keys, the number of distinct index
values inside each group, counts the distinct (group, index) pairs. -/
theorem sum_groups {α κ ι : Type} [DecidableEq α] [DecidableEq κ] [DecidableEq ι]
    (gKey : α → κ) (iKey : α → ι) :
    ∀ (ks : List κ) (rows : List α), ks.Nodup →
      (∀ r ∈ rows, gKey r ∈ ks) →
      (ks.map (fun k =>
          (((rows.filter (fun r => decide (gKey r = k))).map iKey).dedup).length)).sum
        = ((rows.map (fun r => (gKey r, iKey r))).dedup).length := by
  intro ks
  induction ks with
  | nil =>
    intro rows _ hcov
    have hrows : rows = [] := by
      cases rows with
      | nil => rfl
      | cons r rs => exact absurd (hcov r (List.mem_cons_self r rs)) (List.not_mem_nil _)
    subst hrows
    simp
  | cons k ks ih =>
    intro rows hnd hcov
    have hknotin : k ∉ ks := (List.nodup_cons.mp hnd).1
    have hndks : ks.Nodup := (List.nodup_cons.mp hnd).2
    have hpermAB := (List.filter_append_perm
      (fun r => decide (gKey r = k)) rows).symm
    -- the right-hand side splits over the partition
    have hsplit : ((rows.map (fun r => (gKey r, iKey r))).dedup).length
        = (((rows.filter (fun r => decide (gKey r = k))).map
              (fun r => (gKey r, iKey r))).dedup).length
          + (((rows.filter (fun r => !decide (gKey r = k))).map
              (fun r => (gKey r, iKey r))).dedup).length := by
      have hp := hpermAB.map (fun r => (gKey r, iKey r))
      rw [hp.dedup.length_eq, List.map_append]
      refine dedup_length_append_disjoint ?_
      intro x hxA hxB
      obtain ⟨r1, hr1, rfl⟩ := List.mem_map.mp hxA
      obtain ⟨r2, hr2, he⟩ := List.mem_map.mp hxB
      have h1 : gKey r1 = k :=
        by simpa using (List.mem_filter.mp hr1).2
      have h2 : ¬(gKey r2 = k) :=
        by simpa using (List.mem_filter.mp hr2).2
      exact h2 ((show gKey r2 = gKey r1 from congrArg Prod.fst he).trans h1)
    -- the head group's pair count is its index count
    have hhead : (((rows.filter (fun r => decide (gKey r = k))).map
          (fun r => (gKey r, iKey r))).dedup).length
        = (((rows.filter (fun r => decide (gKey r = k))).map iKey).dedup).length := by
      have hpt : (rows.filter (fun r => decide (gKey r = k))).map
            (fun r => (gKey r, iKey r))
          = ((rows.filter (fun r => decide (gKey r = k))).map iKey).map
              (fun x => (k, x)) := by
        rw [List.map_map]
        apply List.map_congr_left
        intro r hr
        have : gKey r = k := by simpa using (List.mem_filter.mp hr).2
        simp [Function.comp, this]
      rw [hpt]
      exact dedup_length_map_injective _ (fun a b hab => by simpa using hab) _
    -- the tail groups see exactly the complement rows
    have htail : ∀ k' ∈ ks,
        (rows.filter (fun r => !decide (gKey r = k))).filter
            (fun r => decide (gKey r = k'))
          = rows.filter (fun r => decide (gKey r = k')) := by
      intro k' hk'
      have hkk : k' ≠ k := fun he => hknotin (he ▸ hk')
      rw [List.filter_filter]
      apply List.filter_congr
      intro r _
      by_cases hg : gKey r = k'
      · simp [hg, hkk]
      · simp [hg]
    have hih := ih (rows.filter (fun r => !decide (gKey r = k))) hndks ?_
    · rw [List.map_cons, List.sum_cons, hsplit, hhead]
      congr 1
      rw [← hih]
      apply congrArg
      apply List.map_congr_left
      intro k' hk'
      rw [htail k' hk']
    · intro r hr
      have hrmem := (List.mem_filter.mp hr).1
      have hrne : ¬(gKey r = k) := by simpa using (List.mem_filter.mp hr).2
      rcases List.mem_cons.mp (hcov r hrmem) with he | he
      · exact absurd he hrne
      · exact he

theorem sum_len_of_map_ok {κ : Type} (f : κ → Except String Table) (m : κ → Nat) :
    ∀ (ks : List κ) (ws : List Table), ks.map f = ws.map Except.ok →
      (∀ k w, f k = Except.ok w → w.rows.length = m k) →
      (ws.map (fun w => w.rows.length)).sum = (ks.map m).sum
  | [], ws, h, _ => by
    cases ws with
    | nil => rfl
    | cons w ws => simp at h
  | k :: ks, ws, h, hm => by
    cases ws with
    | nil => simp at h
    | cons w ws' =>
      simp only [List.map_cons, List.cons.injEq] at h
      obtain ⟨h1, h2⟩ := h
      simp only [List.map_cons, List.sum_cons]
      rw [hm k w h1, sum_len_of_map_ok f m ks ws' h2 hm]

/-- C8: when every per-group pivot succeeds, the sum of the row counts of
the per-group pivot results equals the number of distinct (group, index)
pairs of the input table. -/
theorem c8_grouped_pivot_row_count (t : Table) (g i c v : String)
    (ws : List Table) (hok : groupedPivots t g i c v = Except.ok ws) :
    (ws.map (fun w => w.rows.length)).sum
      = ((t.rows.map (fun r =>
          (getCell t.cols r g, getCell t.cols r i))).dedup).length := by
  unfold groupedPivots at hok
  have hl := collectOk_ok _ _ hok
  have hsum := sum_len_of_map_ok
    (fun k => pivot (subTable t g k) i c v)
    (fun k => (((t.rows.filter (fun r => decide (getCell t.cols r g = k))).map
        (fun r => getCell t.cols r i)).dedup).length)
    (groupKeys t g) ws hl ?_
  · rw [hsum]
    exact sum_groups (fun r => getCell t.cols r g) (fun r => getCell t.cols r i)
      (groupKeys t g) t.rows (sortVals_nodup _)
      (fun r hr => mem_sortVals.mpr (List.mem_map.mpr ⟨r, hr, rfl⟩))
  · intro k w hw
    exact pivot_ok_length hw

/-- A small weather-style table: one station, two dates, two elements, with
one (date, element) combination missing. -/
def weatherEx : Table :=
  { cols := ["id", "date", "element", "value"],
    rows := [[.str "MX", .str "d1", .str "tmax", .int 1],
             [.str "MX", .str "d1", .str "tmin", .int 2],
             [.str "MX", .str "d2", .str "tmax", .int 3]] }

/-- The single per-group pivot result for `weatherEx`. -/
def weatherExWide : Table :=
  { cols := ["date", "tmax", "tmin"],
    rows := [[.str "d1", .int 1, .int 2],
             [.str "d2", .int 3, .na]] }

/-- Witness for C8 at `weatherEx`: the one group pivots to two rows, and the
input has two distinct (id, date) pairs. -/
theorem c8_grouped_pivot_row_count_witness :
    groupedPivots weatherEx "id" "date" "element" "value"
        = Except.ok [weatherExWide] ∧
      ([weatherExWide].map (fun w => w.rows.length)).sum
        = ((weatherEx.rows.map (fun r =>
            (getCell weatherEx.cols r "id", getCell weatherEx.cols r "date"))).dedup).length := by
  refine ⟨by decide, ?_⟩
  exact c8_grouped_pivot_row_count weatherEx "id" "date" "element" "value"
    [weatherExWide] (by decide)

/-- Lexicographic non-strict order on (year, artist, track) natural keys,
matching how pandas sorts group keys. -/
def kle (a b : Value × Value × Value) : Prop :=
  vlt a.1 b.1 = true
    ∨ (a.1 = b.1 ∧ (vlt a.2.1 b.2.1 = true
        ∨ (a.2.1 = b.2.1 ∧ Vle a.2.2 b.2.2)))

instance : DecidableRel kle := fun a b => by
  unfold kle
  infer_instance

instance : IsTrans (Value × Value × Value) kle :=
  ⟨fun a b c h1 h2 => by
    rcases h1 with h1 | ⟨e1, h1'⟩
    · rcases h2 with h2 | ⟨e2, h2'⟩
      · exact Or.inl (vlt_trans h1 h2)
      · exact Or.inl (by rw [← e2]; exact h1)
    · rcases h2 with h2 | ⟨e2, h2'⟩
      · exact Or.inl (by rw [e1]; exact h2)
      · refine Or.inr ⟨e1.trans e2, ?_⟩
        rcases h1' with h1' | ⟨f1, h1''⟩
        · rcases h2' with h2' | ⟨f2, h2''⟩
          · exact Or.inl (vlt_trans h1' h2')
          · exact Or.inl (by rw [← f2]; exact h1')
        · rcases h2' with h2' | ⟨f2, h2''⟩
          · exact Or.inl (by rw [f1]; exact h2')
          · exact Or.inr ⟨f1.trans f2, trans_of Vle h1'' h2''⟩⟩

instance : IsTotal (Value × Value × Value) kle :=
  ⟨fun a b => by
    rcases vlt_total a.1 b.1 with h | h | h
    · exact Or.inl (Or.inl h)
    · rcases vlt_total a.2.1 b.2.1 with h' | h' | h'
      · exact Or.inl (Or.inr ⟨h, Or.inl h'⟩)
      · rcases total_of Vle a.2.2 b.2.2 with h'' | h''
        · exact Or.inl (Or.inr ⟨h, Or.inr ⟨h', h''⟩⟩)
        · exact Or.inr (Or.inr ⟨h.symm, Or.inr ⟨h'.symm, h''⟩⟩)
      · exact Or.inr (Or.inr ⟨h.symm, Or.inl h'⟩)
    · exact Or.inr (Or.inl h)⟩

/-- Sorted distinct (year, artist, track) keys, as `groupby` builds them. -/
def sortKeys (l : List (Value × Value × Value)) : List (Value × Value × Value) :=
  l.dedup.insertionSort kle

theorem sortKeys_perm_dedup (l : List (Value × Value × Value)) :
    (sortKeys l).Perm l.dedup :=
  List.perm_insertionSort kle l.dedup

theorem sortKeys_nodup (l : List (Value × Value × Value)) : (sortKeys l).Nodup :=
  ((sortKeys_perm_dedup l).nodup_iff).mpr l.nodup_dedup

theorem sortKeys_sorted (l : List (Value × Value × Value)) :
    List.Sorted kle (sortKeys l) :=
  List.sorted_insertionSort kle l.dedup

theorem mem_sortKeys {a : Value × Value × Value} {l : List (Value × Value × Value)} :
    a ∈ sortKeys l ↔ a ∈ l := by
  rw [(sortKeys_perm_dedup l).mem_iff, List.mem_dedup]

/-- The (year, artist, track) natural key of a row. -/
def trackKey (cols : List String) (r : List Value) : Value × Value × Value :=
  (getCell cols r "year", getCell cols r "artist", getCell cols r "track")

/-- The first non-missing value of a column slice, as `groupby(...).first()`
picks it. -/
def firstNonNA (l : List Value) : Value :=
  match l.find? (fun x => decide (x ≠ Value.na)) with
  | some x => x
  | none => Value.na

/-- One row of the entity table: the position (the surrogate id), the three
key fields, and the group's first non-missing `time`. -/
def trackRow (t : Table) (p : Nat × (Value × Value × Value)) : List Value :=
  [Value.int (p.1 : Int), p.2.1, p.2.2.1, p.2.2.2,
   firstNonNA ((t.rows.filter
       (fun r => decide (trackKey t.cols r = p.2))).map
     (fun r => getCell t.cols r "time"))]

/-- The notebook's entity table:
`molten[['year','artist','track','time']].groupby(['year','artist','track'])
.first().reset_index().reset_index()` with the `index` column renamed `id` —
one row per distinct (year, artist, track) in ascending key order, a
surrogate `id` counting from 0 in that order, and `time` the group's first
non-missing value. -/
def tidy_track (t : Table) : Table :=
  { cols := ["id", "year", "artist", "track", "time"],
    rows := (sortKeys (t.rows.map (trackKey t.cols))).enum.map (trackRow t) }

/-- `pd.merge(left, right, on=key)` (inner join) at row level: each left
row pairs with every right row sharing its key value, left order first. -/
def mergeRows (l r : Table) (key : String) : List (List Value) :=
  l.rows.flatMap (fun m =>
    (r.rows.filter (fun e =>
      decide (getCell r.cols e key = getCell l.cols m key))).map
      (fun e => m ++ e))

/-- The notebook's fact-table join: `pd.merge(molten, tidy_track, on='track')`. -/
def tidy_rank_rows (molten : Table) : List (List Value) :=
  mergeRows molten (tidy_track molten) "track"

/-- C10: the entity table assigns surrogate ids as consecutive integers
starting at 0, in ascending sorted order of the grouped (year, artist,
track) natural key, with exactly one row per distinct key combination of
the input. -/
theorem c10_tidy_track_ids (t : Table) :
    ((tidy_track t).rows.map List.headI)
        = (List.range (tidy_track t).rows.length).map (fun n => Value.int (Int.ofNat n))
      ∧ List.Sorted kle ((tidy_track t).rows.map (fun row =>
          (getCell (tidy_track t).cols row "year",
           getCell (tidy_track t).cols row "artist",
           getCell (tidy_track t).cols row "track")))
      ∧ ((tidy_track t).rows.map (fun row =>
          (getCell (tidy_track t).cols row "year",
           getCell (tidy_track t).cols row "artist",
           getCell (tidy_track t).cols row "track"))).Nodup
      ∧ (∀ k, k ∈ (tidy_track t).rows.map (fun row =>
          (getCell (tidy_track t).cols row "year",
           getCell (tidy_track t).cols row "artist",
           getCell (tidy_track t).cols row "track"))
          ↔ k ∈ t.rows.map (trackKey t.cols)) := by
  have hkeyrow : ∀ i y a tr tv : Value,
      (getCell ["id", "year", "artist", "track", "time"] [i, y, a, tr, tv] "year",
       getCell ["id", "year", "artist", "track", "time"] [i, y, a, tr, tv] "artist",
       getCell ["id", "year", "artist", "track", "time"] [i, y, a, tr, tv] "track")
      = (y, a, tr) := by
    intro i y a tr tv
    have h1 : getCell ["id", "year", "artist", "track", "time"]
        [i, y, a, tr, tv] "year" = y := by
      rw [getCell_cons_of_ne _ _ (by decide), getCell_cons_self]
    have h2 : getCell ["id", "year", "artist", "track", "time"]
        [i, y, a, tr, tv] "artist" = a := by
      rw [getCell_cons_of_ne _ _ (by decide), getCell_cons_of_ne _ _ (by decide),
        getCell_cons_self]
    have h3 : getCell ["id", "year", "artist", "track", "time"]
        [i, y, a, tr, tv] "track" = tr := by
      rw [getCell_cons_of_ne _ _ (by decide), getCell_cons_of_ne _ _ (by decide),
        getCell_cons_of_ne _ _ (by decide), getCell_cons_self]
    rw [h1, h2, h3]
  have hrows : (tidy_track t).rows
      = (sortKeys (t.rows.map (trackKey t.cols))).enum.map (trackRow t) := rfl
  have hkeymap : (tidy_track t).rows.map (fun row =>
      (getCell (tidy_track t).cols row "year",
       getCell (tidy_track t).cols row "artist",
       getCell (tidy_track t).cols row "track"))
      = sortKeys (t.rows.map (trackKey t.cols)) := by
    rw [hrows, List.map_map]
    refine Eq.trans (List.map_congr_left ?_) (List.enum_map_snd _)
    intro p _
    exact hkeyrow _ _ _ _ _
  refine ⟨?_, ?_, ?_, ?_⟩
  · rw [hrows, List.map_map, List.length_map, List.enum_length,
      List.enum_eq_zip_range]
    have h1 : (List.headI ∘ trackRow t)
        = (fun n : Nat => Value.int (Int.ofNat n)) ∘ Prod.fst := by
      funext p
      rfl
    rw [h1, ← List.map_map,
      List.map_fst_zip _ _ (le_of_eq (List.length_range _))]
  · rw [hkeymap]
    exact sortKeys_sorted _
  · rw [hkeymap]
    exact sortKeys_nodup _
  · intro k
    rw [hkeymap]
    exact mem_sortKeys

/-- A denormalized table in which two different entities (different artists)
share the track title `Song`. -/
def moltenDup : Table :=
  { cols := ["year", "artist", "track", "time", "week", "rank"],
    rows := [[.int 2000, .str "X", .str "Song", .str "3:00", .str "wk1", .int 87],
             [.int 2000, .str "Y", .str "Song", .str "4:00", .str "wk1", .int 91]] }

/-- C3 evidence: normalizing `moltenDup` produces two entity rows whose
track title is `Song`, and the notebook's merge on `'track'` alone then
matches each of the two fact rows against both entities, emitting four
joined rows — each fact row resolves to two entity rows, not exactly one. -/
theorem c3_partial_key_collision :
    ((tidy_track moltenDup).rows.filter (fun e =>
        decide (getCell (tidy_track moltenDup).cols e "track"
          = Value.str "Song"))).length = 2
      ∧ moltenDup.rows.length = 2
      ∧ (tidy_rank_rows moltenDup).length = 4 := by decide

end TidyData
